import Mathlib

/-!
Verification of the nanobot configuration loader and tool-validation layer.

The Python sources embedded here are:
* `src/nanobot/config/loader.py` — key-case conversion (`camel_to_snake`,
  `snake_to_camel`, `convert_keys`, `convert_to_camel`), the structural
  migration `_migrate_config`, and `load_config`;
* `src/tests/test_tool_validation.py` — the sample tool schema and the
  behaviour of the validator and registry exercised by the tests.

JSON-like data is modelled by the mutual inductive `Value`; Python `dict`s
become ordered association lists (`ObjList`) with insert-or-replace update,
mirroring CPython's insertion-order semantics.  Python string/character
operations (`str.isupper`, `str.lower`, `str.title`, `str.split("_")`) are
modelled for the ASCII range, which is the range the loader's key-case
conversions are designed for.

The validator, `Tool` base class and `ToolRegistry` live in modules that are
not part of the sources (only their tests are); they are modelled from the
spec, as marked in the corresponding doc comments.
-/

/-- ASCII model of Python's single-character `str.isupper`. -/
def pyIsUpper (c : Char) : Bool := decide (65 ≤ c.toNat ∧ c.toNat ≤ 90)

/-- ASCII model of Python's single-character `str.islower`. -/
def pyIsLower (c : Char) : Bool := decide (97 ≤ c.toNat ∧ c.toNat ≤ 122)

/-- ASCII model of Python's single-character `str.isdigit`. -/
def pyIsDigit (c : Char) : Bool := decide (48 ≤ c.toNat ∧ c.toNat ≤ 57)

/-- ASCII model of Python's single-character `str.isalpha` (a cased character). -/
def pyIsAlpha (c : Char) : Bool := pyIsUpper c || pyIsLower c

/-- ASCII model of Python's single-character `str.lower`. -/
def pyToLower (c : Char) : Char :=
  if pyIsUpper c then Char.ofNat (c.toNat + 32) else c

/-- ASCII model of Python's single-character `str.upper`. -/
def pyToUpper (c : Char) : Char :=
  if pyIsLower c then Char.ofNat (c.toNat - 32) else c

theorem char_toNat_ofNat (n : Nat) (h : n < 55296) : (Char.ofNat n).toNat = n := by
  unfold Char.ofNat
  rw [dif_pos (Or.inl h)]
  rfl

theorem char_eq_of_toNat_eq {c d : Char} (h : c.toNat = d.toNat) : c = d :=
  Char.ext (UInt32.ext h)

theorem pyIsUpper_iff (c : Char) : pyIsUpper c = true ↔ 65 ≤ c.toNat ∧ c.toNat ≤ 90 := by
  simp [pyIsUpper]

theorem pyIsLower_iff (c : Char) : pyIsLower c = true ↔ 97 ≤ c.toNat ∧ c.toNat ≤ 122 := by
  simp [pyIsLower]

theorem pyToLower_toNat_of_upper {c : Char} (h : pyIsUpper c = true) :
    (pyToLower c).toNat = c.toNat + 32 := by
  have hb := (pyIsUpper_iff c).mp h
  rw [pyToLower, if_pos h, char_toNat_ofNat]
  omega

theorem pyToLower_of_not_upper {c : Char} (h : pyIsUpper c = false) : pyToLower c = c := by
  rw [pyToLower, if_neg (by simp [h])]

theorem pyIsUpper_pyToLower (c : Char) : pyIsUpper (pyToLower c) = false := by
  by_cases h : pyIsUpper c = true
  · have hb := (pyIsUpper_iff c).mp h
    have ht := pyToLower_toNat_of_upper h
    simp only [pyIsUpper, decide_eq_false_iff_not]
    omega
  · rw [pyToLower_of_not_upper (by revert h; cases pyIsUpper c <;> simp)]
    revert h; cases pyIsUpper c <;> simp

theorem pyToLower_idem (c : Char) : pyToLower (pyToLower c) = pyToLower c :=
  pyToLower_of_not_upper (pyIsUpper_pyToLower c)

theorem pyIsLower_not_upper {c : Char} (h : pyIsLower c = true) : pyIsUpper c = false := by
  have hb := (pyIsLower_iff c).mp h
  simp only [pyIsUpper, decide_eq_false_iff_not]
  omega

theorem pyToUpper_toNat_of_lower {c : Char} (h : pyIsLower c = true) :
    (pyToUpper c).toNat = c.toNat - 32 := by
  have hb := (pyIsLower_iff c).mp h
  rw [pyToUpper, if_pos h, char_toNat_ofNat]
  omega

theorem pyIsUpper_pyToUpper {c : Char} (h : pyIsLower c = true) :
    pyIsUpper (pyToUpper c) = true := by
  have hb := (pyIsLower_iff c).mp h
  have ht := pyToUpper_toNat_of_lower h
  rw [pyIsUpper_iff]
  omega

theorem pyToLower_pyToUpper {c : Char} (h : pyIsLower c = true) :
    pyToLower (pyToUpper c) = c := by
  have hb := (pyIsLower_iff c).mp h
  apply char_eq_of_toNat_eq
  rw [pyToLower_toNat_of_upper (pyIsUpper_pyToUpper h), pyToUpper_toNat_of_lower h]
  omega

theorem pyIsAlpha_of_lower {c : Char} (h : pyIsLower c = true) : pyIsAlpha c = true := by
  simp [pyIsAlpha, h]

/-- Embeds the loop of `camel_to_snake` (loader.py lines 125-132): the `Bool`
argument records whether we are still at index `i = 0`. -/
def c2sChars : List Char → Bool → List Char
  | [], _ => []
  | c :: cs, first =>
    if pyIsUpper c && !first then '_' :: pyToLower c :: c2sChars cs false
    else pyToLower c :: c2sChars cs false

/-- Embeds `camel_to_snake` from loader.py: inserts `_` before every
uppercase character at positive index and lowercases every character. -/
def camel_to_snake (name : String) : String := String.mk (c2sChars name.data true)

/-- ASCII model of Python's `str.title` over a character list: a cased
character following a non-cased one is uppercased, other cased characters are
lowercased.  The `Bool` argument records whether the previous character was
cased. -/
def titleChars : List Char → Bool → List Char
  | [], _ => []
  | c :: cs, prev =>
    (if pyIsAlpha c then (if prev then pyToLower c else pyToUpper c) else c)
      :: titleChars cs (pyIsAlpha c)

/-- Python's `x.title()` on a component (no character precedes the start). -/
def pyTitle (s : List Char) : List Char := titleChars s false

/-- Python's `name.split("_")` on the character list: splits at every
underscore and keeps empty components; the result is always nonempty. -/
def splitU : List Char → List (List Char)
  | [] => [[]]
  | c :: cs =>
    if c = '_' then [] :: splitU cs
    else
      match splitU cs with
      | h :: t => (c :: h) :: t
      | [] => [[c]]

/-- Embeds `snake_to_camel` from loader.py (lines 135-138):
`components[0] + "".join(x.title() for x in components[1:])`. -/
def snake_to_camel (name : String) : String :=
  match splitU name.data with
  | [] => ""
  | c0 :: rest => String.mk (c0 ++ (rest.map pyTitle).flatten)

/-- Inverse of `splitU`: interleave the components with underscores. -/
def joinU : List (List Char) → List Char
  | [] => []
  | [c] => c
  | c :: t => c ++ '_' :: joinU t

theorem joinU_splitU (l : List Char) : joinU (splitU l) = l := by
  induction l with
  | nil => rfl
  | cons c cs ih =>
    by_cases hc : c = '_'
    · subst hc
      rw [splitU, if_pos rfl]
      cases hs : splitU cs with
      | nil =>
        exfalso
        rw [hs] at ih
        have hcs : cs = [] := by simpa [joinU] using ih.symm
        subst hcs
        simp [splitU] at hs
      | cons h t =>
        rw [hs] at ih
        simp only [joinU, List.nil_append]
        rw [← ih]
    · rw [splitU, if_neg hc]
      cases hs : splitU cs with
      | nil =>
        exfalso
        cases cs with
        | nil => simp [splitU] at hs
        | cons d ds =>
          rw [splitU] at hs
          by_cases hd : d = '_'
          · rw [if_pos hd] at hs; cases hs
          · rw [if_neg hd] at hs
            cases hds : splitU ds with
            | nil => rw [hds] at hs; cases hs
            | cons x y => rw [hds] at hs; cases hs
      | cons h t =>
        rw [hs] at ih
        cases t with
        | nil => simp only [joinU] at ih ⊢; rw [ih]
        | cons x y => simp only [joinU] at ih ⊢; rw [List.cons_append, ih]

theorem c2sChars_append (l1 l2 : List Char) (f : Bool) :
    c2sChars (l1 ++ l2) f = c2sChars l1 f ++ c2sChars l2 (f && l1.isEmpty) := by
  induction l1 generalizing f with
  | nil => simp [c2sChars]
  | cons c cs ih =>
    simp only [List.cons_append, c2sChars, List.isEmpty_cons, Bool.and_false]
    by_cases h : (pyIsUpper c && !f) = true
    · rw [if_pos h, if_pos h]
      simp [List.append_eq, ih]
    · rw [if_neg h, if_neg h]
      simp [List.append_eq, ih]

theorem c2sChars_of_all_lower {l : List Char} (h : ∀ c ∈ l, pyIsLower c = true)
    (f : Bool) : c2sChars l f = l := by
  induction l generalizing f with
  | nil => rfl
  | cons c cs ih =>
    have hc : pyIsLower c = true := h c (by simp)
    rw [c2sChars, if_neg (by simp [pyIsLower_not_upper hc]),
      pyToLower_of_not_upper (pyIsLower_not_upper hc), ih (fun d hd => h d (by simp [hd]))]

theorem titleChars_of_all_lower {l : List Char} (h : ∀ c ∈ l, pyIsLower c = true) :
    titleChars l true = l := by
  induction l with
  | nil => rfl
  | cons c cs ih =>
    have hc : pyIsLower c = true := h c (by simp)
    rw [titleChars, if_pos (by simp [pyIsAlpha_of_lower hc]),
      pyIsAlpha_of_lower hc, pyToLower_of_not_upper (pyIsLower_not_upper hc),
      ih (fun d hd => h d (by simp [hd]))]
    simp

theorem pyTitle_lower_comp {c : Char} {rest : List Char} (hc : pyIsLower c = true)
    (h : ∀ d ∈ rest, pyIsLower d = true) :
    pyTitle (c :: rest) = pyToUpper c :: rest := by
  rw [pyTitle, titleChars, if_pos (by simp [pyIsAlpha_of_lower hc]),
    pyIsAlpha_of_lower hc, titleChars_of_all_lower h]
  simp

theorem c2sChars_titled_comp {c : Char} {rest : List Char} (hc : pyIsLower c = true)
    (h : ∀ d ∈ rest, pyIsLower d = true) :
    c2sChars (pyToUpper c :: rest) false = '_' :: c :: rest := by
  rw [c2sChars, if_pos (by simp [pyIsUpper_pyToUpper hc]),
    pyToLower_pyToUpper hc, c2sChars_of_all_lower h]

/-- A key component of an alphabetic `snake_case` key: nonempty, all ASCII
lowercase letters. -/
def isAlphaSnakeComp (comp : List Char) : Bool := !comp.isEmpty && comp.all pyIsLower

/-- A key component of a conventional `snake_case` key: nonempty, ASCII
lowercase letters and digits. -/
def isSnakeComp (comp : List Char) : Bool :=
  !comp.isEmpty && comp.all (fun c => pyIsLower c || pyIsDigit c)

/-- An alphabetic `snake_case` key: underscore-separated nonempty components
of ASCII lowercase letters only. -/
def isAlphaSnakeKey (k : String) : Bool := (splitU k.data).all isAlphaSnakeComp

/-- A `snake_case` key in the conventional sense: underscore-separated
nonempty components of ASCII lowercase letters and digits. -/
def isSnakeKey (k : String) : Bool := (splitU k.data).all isSnakeComp

theorem c2sChars_flatten_titled {comps : List (List Char)}
    (h : ∀ comp ∈ comps, isAlphaSnakeComp comp = true) :
    c2sChars ((comps.map pyTitle).flatten) false
      = (comps.map (fun comp => '_' :: comp)).flatten := by
  induction comps with
  | nil => rfl
  | cons comp rest ih =>
    have hcomp := h comp (by simp)
    simp only [isAlphaSnakeComp, Bool.and_eq_true, List.all_eq_true] at hcomp
    obtain ⟨hne, hlow⟩ := hcomp
    cases comp with
    | nil => simp at hne
    | cons c cr =>
      have hc : pyIsLower c = true := hlow c (by simp)
      have hcr : ∀ d ∈ cr, pyIsLower d = true := fun d hd => hlow d (by simp [hd])
      simp only [List.map_cons, List.flatten_cons]
      rw [pyTitle_lower_comp hc hcr, List.cons_append, c2sChars,
        if_pos (by simp [pyIsUpper_pyToUpper hc]), pyToLower_pyToUpper hc,
        c2sChars_append, c2sChars_of_all_lower hcr, Bool.false_and,
        ih (fun d hd => h d (by simp [hd]))]
      simp

theorem joinU_as_flatten (c0 : List Char) (rest : List (List Char)) :
    joinU (c0 :: rest) = c0 ++ (rest.map (fun comp => '_' :: comp)).flatten := by
  induction rest generalizing c0 with
  | nil => simp [joinU]
  | cons r t ih =>
    simp only [joinU, List.map_cons, List.flatten_cons]
    cases t with
    | nil => simp [joinU]
    | cons x y =>
      have := ih r
      simp only [joinU] at this ⊢
      rw [this]
      simp

/-- On alphabetic snake_case keys, `camel_to_snake` undoes `snake_to_camel`. -/
theorem camel_to_snake_snake_to_camel {k : String} (h : isAlphaSnakeKey k = true) :
    camel_to_snake (snake_to_camel k) = k := by
  rw [isAlphaSnakeKey, List.all_eq_true] at h
  rw [snake_to_camel]
  cases hs : splitU k.data with
  | nil =>
    exfalso
    have hj := joinU_splitU k.data
    rw [hs] at hj
    simp only [joinU] at hj
    rw [← hj] at hs
    simp [splitU] at hs
  | cons c0 rest =>
    have hc0 : isAlphaSnakeComp c0 = true := by
      apply h; rw [hs]; simp
    have hrest : ∀ comp ∈ rest, isAlphaSnakeComp comp = true := by
      intro comp hcomp; apply h; rw [hs]; simp [hcomp]
    have hc0ne : c0.isEmpty = false := by
      simp only [isAlphaSnakeComp, Bool.and_eq_true] at hc0
      cases hh : c0.isEmpty
      · rfl
      · rw [hh] at hc0; simp at hc0
    have hc0low : ∀ c ∈ c0, pyIsLower c = true := by
      simp only [isAlphaSnakeComp, Bool.and_eq_true, List.all_eq_true] at hc0
      exact fun c hc => hc0.2 c hc
    rw [camel_to_snake]
    have hdata : (String.mk (c0 ++ (rest.map pyTitle).flatten)).data
        = c0 ++ (rest.map pyTitle).flatten := rfl
    rw [hdata, c2sChars_append, c2sChars_of_all_lower hc0low, hc0ne,
      Bool.and_false, c2sChars_flatten_titled hrest, ← joinU_as_flatten,
      ← hs, joinU_splitU]

theorem c2sChars_chars_not_upper {l : List Char} {f : Bool} {c : Char}
    (h : c ∈ c2sChars l f) : pyIsUpper c = false ∧ pyToLower c = c := by
  induction l generalizing f with
  | nil => simp [c2sChars] at h
  | cons d ds ih =>
    rw [c2sChars] at h
    by_cases hd : (pyIsUpper d && !f) = true
    · rw [if_pos hd] at h
      rcases List.mem_cons.mp h with h | h
      · subst h; constructor <;> rfl
      · rcases List.mem_cons.mp h with h | h
        · subst h
          exact ⟨pyIsUpper_pyToLower d, pyToLower_idem d⟩
        · exact ih h
    · rw [if_neg hd] at h
      rcases List.mem_cons.mp h with h | h
      · subst h
        exact ⟨pyIsUpper_pyToLower d, pyToLower_idem d⟩
      · exact ih h

theorem c2sChars_fixed {l : List Char}
    (h : ∀ c ∈ l, pyIsUpper c = false ∧ pyToLower c = c) (f : Bool) :
    c2sChars l f = l := by
  induction l generalizing f with
  | nil => rfl
  | cons c cs ih =>
    have hc := h c (by simp)
    rw [c2sChars, if_neg (by simp [hc.1]), hc.2, ih (fun d hd => h d (by simp [hd]))]

/-- `camel_to_snake` is idempotent. -/
theorem camel_to_snake_idem (s : String) :
    camel_to_snake (camel_to_snake s) = camel_to_snake s := by
  rw [camel_to_snake, camel_to_snake]
  have hdata : (String.mk (c2sChars s.data true)).data = c2sChars s.data true := rfl
  rw [hdata, c2sChars_fixed (fun c hc => c2sChars_chars_not_upper hc)]

/-!
JSON-representable values, as produced by `json.load`: strings, integers,
non-integral numbers (floats, modelled as rationals), booleans, `null`,
arrays and objects.  Objects are ordered association lists (`ObjList`),
mirroring CPython's insertion-ordered `dict`.
-/
mutual
inductive Value where
  | str (s : String) : Value
  | int (n : Int) : Value
  | num (q : Rat) : Value
  | bool (b : Bool) : Value
  | null : Value
  | arr (items : ValueList) : Value
  | obj (entries : ObjList) : Value
inductive ValueList where
  | nil : ValueList
  | cons (head : Value) (tail : ValueList) : ValueList
inductive ObjList where
  | nil : ObjList
  | cons (key : String) (value : Value) (tail : ObjList) : ObjList
end

/-- Python dict lookup `d.get(k)` / `k in d` (keys are unique in a dict, so
first match is the match). -/
def ObjList.get : ObjList → String → Option Value
  | .nil, _ => none
  | .cons k v t, j => if k = j then some v else t.get j

/-- Python dict update `d[k] = v`: replaces in place when the key exists,
appends at the end otherwise (CPython insertion-order semantics). -/
def ObjList.set : ObjList → String → Value → ObjList
  | .nil, j, w => .cons j w .nil
  | .cons k v t, j, w => if k = j then .cons k w t else .cons k v (t.set j w)

/-- Python dict `d.pop(k)`: drop the entry with the given key, keeping the
order of the remaining entries. -/
def ObjList.remove : ObjList → String → ObjList
  | .nil, _ => .nil
  | .cons k v t, j => if k = j then t else .cons k v (t.remove j)

def ObjList.hasKey (l : ObjList) (j : String) : Bool := (l.get j).isSome

def ObjList.keys : ObjList → List String
  | .nil => []
  | .cons k _ t => k :: t.keys

def ObjList.append : ObjList → ObjList → ObjList
  | .nil, m => m
  | .cons k v t, m => .cons k v (t.append m)

/-- Keys of a dict are pairwise distinct (every real Python dict satisfies
this; `ObjList.set` preserves it). -/
def ObjList.noDupKeys : ObjList → Bool
  | .nil => true
  | .cons k _ t => !t.hasKey k && t.noDupKeys

theorem valueInduct (P : Value → Prop) (Q : ValueList → Prop) (R : ObjList → Prop)
    (h1 : ∀ s, P (.str s)) (h2 : ∀ n, P (.int n)) (h3 : ∀ q, P (.num q))
    (h4 : ∀ b, P (.bool b)) (h5 : P .null)
    (h6 : ∀ l, Q l → P (.arr l)) (h7 : ∀ e, R e → P (.obj e))
    (h8 : Q .nil) (h9 : ∀ v t, P v → Q t → Q (.cons v t))
    (h10 : R .nil) (h11 : ∀ k v t, P v → R t → R (.cons k v t)) :
    (∀ v, P v) ∧ (∀ l, Q l) ∧ (∀ e, R e) :=
  ⟨fun v => @Value.rec P Q R h1 h2 h3 h4 h5 h6 h7 h8 h9 h10 h11 v,
   fun l => @ValueList.rec P Q R h1 h2 h3 h4 h5 h6 h7 h8 h9 h10 h11 l,
   fun e => @ObjList.rec P Q R h1 h2 h3 h4 h5 h6 h7 h8 h9 h10 h11 e⟩

mutual
def Value.beq : Value → Value → Bool
  | .str a, .str b => a == b
  | .int a, .int b => a == b
  | .num a, .num b => decide (a = b)
  | .bool a, .bool b => a == b
  | .null, .null => true
  | .arr a, .arr b => ValueList.beq a b
  | .obj a, .obj b => ObjList.beq a b
  | _, _ => false
termination_by structural v => v
def ValueList.beq : ValueList → ValueList → Bool
  | .nil, .nil => true
  | .cons a t, .cons b u => Value.beq a b && ValueList.beq t u
  | _, _ => false
termination_by structural l => l
def ObjList.beq : ObjList → ObjList → Bool
  | .nil, .nil => true
  | .cons k a t, .cons j b u => k == j && Value.beq a b && ObjList.beq t u
  | _, _ => false
termination_by structural l => l
end

theorem value_beq_iff :
    (∀ a b : Value, Value.beq a b = true ↔ a = b) ∧
    (∀ a b : ValueList, ValueList.beq a b = true ↔ a = b) ∧
    (∀ a b : ObjList, ObjList.beq a b = true ↔ a = b) := by
  refine valueInduct (fun a => ∀ b, Value.beq a b = true ↔ a = b)
    (fun a => ∀ b, ValueList.beq a b = true ↔ a = b)
    (fun a => ∀ b, ObjList.beq a b = true ↔ a = b)
    ?_ ?_ ?_ ?_ ?_ ?_ ?_ ?_ ?_ ?_ ?_
  · intro s b; cases b <;> simp [Value.beq]
  · intro n b; cases b <;> simp [Value.beq]
  · intro q b; cases b <;> simp [Value.beq]
  · intro x b; cases b <;> simp [Value.beq]
  · intro b; cases b <;> simp [Value.beq]
  · intro l ih b; cases b <;> simp [Value.beq, ih]
  · intro e ih b; cases b <;> simp [Value.beq, ih]
  · intro b; cases b <;> simp [ValueList.beq]
  · intro v t ihv iht b; cases b <;> simp [ValueList.beq, ihv, iht]
  · intro b; cases b <;> simp [ObjList.beq]
  · intro k v t ihv iht b; cases b <;> simp [ObjList.beq, ihv, iht, and_assoc]

instance : DecidableEq Value :=
  fun a b => decidable_of_iff (Value.beq a b = true) (value_beq_iff.1 a b)

instance : DecidableEq ValueList :=
  fun a b => decidable_of_iff (ValueList.beq a b = true) (value_beq_iff.2.1 a b)

instance : DecidableEq ObjList :=
  fun a b => decidable_of_iff (ObjList.beq a b = true) (value_beq_iff.2.2 a b)

/-- The entries of a dict as a plain list of pairs (for stating lemmas). -/
def ObjList.toList : ObjList → List (String × Value)
  | .nil => []
  | .cons k v t => (k, v) :: t.toList

/-- Embeds `_is_mcp_env_map_path` (loader.py lines 80-82): whether `path`
points at `tools.mcp_servers.<name>.env`. -/
def _is_mcp_env_map_path (path : List String) : Bool :=
  match path with
  | [a, b, _, d] => a = "tools" && b = "mcp_servers" && d = "env"
  | _ => false

mutual
/-- Embeds `convert_keys` (loader.py lines 85-102): converts camelCase keys
to snake_case recursively, except under the exempted env position. -/
def convert_keys : Value → List String → Value
  | .obj entries, path => .obj (convertKeysItems entries path .nil)
  | .arr items, path => .arr (convertKeysArr items path)
  | v, _ => v
termination_by structural v => v
/-- The dict loop of `convert_keys`: `out` is the dict built so far; at the
env position the original key `k` is kept and the recursion path is extended
with `k`, otherwise the converted key is used for both. -/
def convertKeysItems : ObjList → List String → ObjList → ObjList
  | .nil, _, out => out
  | .cons k v rest, path, out =>
    if _is_mcp_env_map_path path then
      convertKeysItems rest path (out.set k (convert_keys v (path ++ [k])))
    else
      convertKeysItems rest path
        (out.set (camel_to_snake k) (convert_keys v (path ++ [camel_to_snake k])))
termination_by structural l => l
/-- The list branch of `convert_keys`: elements are converted with the same
path. -/
def convertKeysArr : ValueList → List String → ValueList
  | .nil, _ => .nil
  | .cons v rest, path => .cons (convert_keys v path) (convertKeysArr rest path)
termination_by structural l => l
end

mutual
/-- Embeds `convert_to_camel` (loader.py lines 105-122): converts snake_case
keys to camelCase recursively, except under the exempted env position.  The
recursion path is always extended with the original key `k`. -/
def convert_to_camel : Value → List String → Value
  | .obj entries, path => .obj (convertToCamelItems entries path .nil)
  | .arr items, path => .arr (convertToCamelArr items path)
  | v, _ => v
termination_by structural v => v
/-- The dict loop of `convert_to_camel`. -/
def convertToCamelItems : ObjList → List String → ObjList → ObjList
  | .nil, _, out => out
  | .cons k v rest, path, out =>
    if _is_mcp_env_map_path path then
      convertToCamelItems rest path (out.set k (convert_to_camel v (path ++ [k])))
    else
      convertToCamelItems rest path
        (out.set (snake_to_camel k) (convert_to_camel v (path ++ [k])))
termination_by structural l => l
/-- The list branch of `convert_to_camel`. -/
def convertToCamelArr : ValueList → List String → ValueList
  | .nil, _ => .nil
  | .cons v rest, path => .cons (convert_to_camel v path) (convertToCamelArr rest path)
termination_by structural l => l
end

/-- What the `convert_keys` dict loop produces entrywise, ignoring key
collisions (the loop's insert-or-replace builds exactly this when the
produced keys are pairwise distinct). -/
def ckMap : ObjList → List String → ObjList
  | .nil, _ => .nil
  | .cons k v t, p =>
    if _is_mcp_env_map_path p then .cons k (convert_keys v (p ++ [k])) (ckMap t p)
    else .cons (camel_to_snake k) (convert_keys v (p ++ [camel_to_snake k])) (ckMap t p)

/-- Entrywise form of the `convert_to_camel` dict loop. -/
def ctcMap : ObjList → List String → ObjList
  | .nil, _ => .nil
  | .cons k v t, p =>
    if _is_mcp_env_map_path p then .cons k (convert_to_camel v (p ++ [k])) (ctcMap t p)
    else .cons (snake_to_camel k) (convert_to_camel v (p ++ [k])) (ctcMap t p)

/-- Induction on `ObjList` alone (the mutual recursor specialised with
trivial motives on `Value` and `ValueList`). -/
theorem objListInduct (R : ObjList → Prop) (hnil : R .nil)
    (hcons : ∀ k v t, R t → R (.cons k v t)) : ∀ l, R l :=
  fun l => @ObjList.rec (fun _ => True) (fun _ => True) R
    (fun _ => trivial) (fun _ => trivial) (fun _ => trivial) (fun _ => trivial) trivial
    (fun _ _ => trivial) (fun _ _ => trivial) trivial (fun _ _ _ _ => trivial)
    hnil (fun k v t _ ih => hcons k v t ih) l

/-- Induction on `ValueList` alone. -/
theorem valueListInduct (Q : ValueList → Prop) (hnil : Q .nil)
    (hcons : ∀ v t, Q t → Q (.cons v t)) : ∀ l, Q l :=
  fun l => @ValueList.rec (fun _ => True) Q (fun _ => True)
    (fun _ => trivial) (fun _ => trivial) (fun _ => trivial) (fun _ => trivial) trivial
    (fun _ _ => trivial) (fun _ _ => trivial) hnil (fun v t _ ih => hcons v t ih)
    trivial (fun _ _ _ _ _ => trivial) l

theorem ObjList.hasKey_cons (k : String) (v : Value) (t : ObjList) (j : String) :
    (ObjList.cons k v t).hasKey j = (decide (k = j) || t.hasKey j) := by
  by_cases h : k = j <;> simp [ObjList.hasKey, ObjList.get, h]

theorem ObjList.append_nil (l : ObjList) : l.append .nil = l := by
  induction l using objListInduct with
  | hnil => rfl
  | hcons k v t ih => rw [ObjList.append, ih]

theorem ObjList.append_assoc (a b c : ObjList) :
    (a.append b).append c = a.append (b.append c) := by
  induction a using objListInduct with
  | hnil => rfl
  | hcons k v t ih => rw [ObjList.append, ObjList.append, ObjList.append, ih]

theorem ObjList.set_fresh (l : ObjList) (j : String) (w : Value)
    (h : l.hasKey j = false) : l.set j w = l.append (.cons j w .nil) := by
  induction l using objListInduct with
  | hnil => rfl
  | hcons k v t ih =>
    rw [ObjList.hasKey_cons] at h
    have hk : ¬(k = j) := by
      intro he; rw [he] at h; simp at h
    rw [ObjList.set, if_neg hk, ObjList.append, ih]
    simp only [Bool.or_eq_false_iff] at h
    exact h.2

theorem ObjList.hasKey_append (a b : ObjList) (j : String) :
    (a.append b).hasKey j = (a.hasKey j || b.hasKey j) := by
  induction a using objListInduct with
  | hnil => simp [ObjList.append, ObjList.hasKey, ObjList.get]
  | hcons k v t ih =>
    rw [ObjList.append, ObjList.hasKey_cons, ObjList.hasKey_cons, ih, Bool.or_assoc]

theorem ObjList.hasKey_set (l : ObjList) (j : String) (w : Value) (i : String) :
    (l.set j w).hasKey i = (l.hasKey i || decide (j = i)) := by
  induction l using objListInduct with
  | hnil => by_cases h : j = i <;> simp [ObjList.set, ObjList.hasKey, ObjList.get, h]
  | hcons k v t ih =>
    by_cases h : k = j
    · rw [ObjList.set, if_pos h, ObjList.hasKey_cons, ObjList.hasKey_cons, h]
      by_cases hji : j = i <;> simp [hji]
    · rw [ObjList.set, if_neg h, ObjList.hasKey_cons, ObjList.hasKey_cons, ih,
        Bool.or_assoc]

theorem ObjList.noDupKeys_set (l : ObjList) (j : String) (w : Value)
    (h : l.noDupKeys = true) : (l.set j w).noDupKeys = true := by
  induction l using objListInduct with
  | hnil => simp [ObjList.set, ObjList.noDupKeys, ObjList.hasKey, ObjList.get]
  | hcons k v t ih =>
    rw [ObjList.noDupKeys, Bool.and_eq_true] at h
    by_cases hk : k = j
    · rw [ObjList.set, if_pos hk, ObjList.noDupKeys, Bool.and_eq_true]
      exact ⟨h.1, h.2⟩
    · rw [ObjList.set, if_neg hk, ObjList.noDupKeys, Bool.and_eq_true]
      refine ⟨?_, ih h.2⟩
      rw [ObjList.hasKey_set]
      have h1 : t.hasKey k = false := by
        have hb := h.1
        cases hh : t.hasKey k
        · rfl
        · rw [hh] at hb; simp at hb
      have hjk : ¬(j = k) := fun he => hk he.symm
      simp [h1, hjk]

theorem convertKeysItems_eq (entries : ObjList) (p : List String) :
    ∀ out : ObjList, (ckMap entries p).noDupKeys = true →
    (∀ j, (ckMap entries p).hasKey j = true → out.hasKey j = false) →
    convertKeysItems entries p out = out.append (ckMap entries p) := by
  induction entries using objListInduct with
  | hnil =>
    intro out _ _
    rw [convertKeysItems, ckMap, ObjList.append_nil]
  | hcons k v t ih =>
    intro out hnd hfr
    by_cases hp : _is_mcp_env_map_path p = true
    · rw [ckMap, if_pos hp] at hnd hfr ⊢
      rw [ObjList.noDupKeys, Bool.and_eq_true] at hnd
      rw [convertKeysItems, if_pos hp,
        ObjList.set_fresh _ _ _ (hfr k (by rw [ObjList.hasKey_cons]; simp))]
      rw [ih _ hnd.2 ?fr1, ObjList.append_assoc]
      · rfl
      case fr1 =>
        intro j hj
        rw [ObjList.hasKey_append, ObjList.hasKey_cons]
        have h1 : out.hasKey j = false := by
          apply hfr
          rw [ObjList.hasKey_cons, hj]
          simp
        have h2 : ¬(k = j) := by
          intro he
          subst he
          have := hnd.1
          rw [hj] at this
          simp at this
        simp [h1, h2, show ObjList.nil.hasKey j = false from rfl]
    · have hp' : _is_mcp_env_map_path p = false := by
        cases hh : _is_mcp_env_map_path p
        · rfl
        · exact absurd hh hp
      rw [ckMap, if_neg (by simp [hp'])] at hnd hfr ⊢
      rw [ObjList.noDupKeys, Bool.and_eq_true] at hnd
      rw [convertKeysItems, if_neg (by simp [hp']),
        ObjList.set_fresh _ _ _ (hfr (camel_to_snake k) (by rw [ObjList.hasKey_cons]; simp))]
      rw [ih _ hnd.2 ?fr2, ObjList.append_assoc]
      · rfl
      case fr2 =>
        intro j hj
        rw [ObjList.hasKey_append, ObjList.hasKey_cons]
        have h1 : out.hasKey j = false := by
          apply hfr
          rw [ObjList.hasKey_cons, hj]
          simp
        have h2 : ¬(camel_to_snake k = j) := by
          intro he
          subst he
          have := hnd.1
          rw [hj] at this
          simp at this
        simp [h1, h2, show ObjList.nil.hasKey j = false from rfl]

theorem convertToCamelItems_eq (entries : ObjList) (p : List String) :
    ∀ out : ObjList, (ctcMap entries p).noDupKeys = true →
    (∀ j, (ctcMap entries p).hasKey j = true → out.hasKey j = false) →
    convertToCamelItems entries p out = out.append (ctcMap entries p) := by
  induction entries using objListInduct with
  | hnil =>
    intro out _ _
    rw [convertToCamelItems, ctcMap, ObjList.append_nil]
  | hcons k v t ih =>
    intro out hnd hfr
    by_cases hp : _is_mcp_env_map_path p = true
    · rw [ctcMap, if_pos hp] at hnd hfr ⊢
      rw [ObjList.noDupKeys, Bool.and_eq_true] at hnd
      rw [convertToCamelItems, if_pos hp,
        ObjList.set_fresh _ _ _ (hfr k (by rw [ObjList.hasKey_cons]; simp))]
      rw [ih _ hnd.2 ?fr3, ObjList.append_assoc]
      · rfl
      case fr3 =>
        intro j hj
        rw [ObjList.hasKey_append, ObjList.hasKey_cons]
        have h1 : out.hasKey j = false := by
          apply hfr
          rw [ObjList.hasKey_cons, hj]
          simp
        have h2 : ¬(k = j) := by
          intro he
          subst he
          have := hnd.1
          rw [hj] at this
          simp at this
        simp [h1, h2, show ObjList.nil.hasKey j = false from rfl]
    · have hp' : _is_mcp_env_map_path p = false := by
        cases hh : _is_mcp_env_map_path p
        · rfl
        · exact absurd hh hp
      rw [ctcMap, if_neg (by simp [hp'])] at hnd hfr ⊢
      rw [ObjList.noDupKeys, Bool.and_eq_true] at hnd
      rw [convertToCamelItems, if_neg (by simp [hp']),
        ObjList.set_fresh _ _ _ (hfr (snake_to_camel k) (by rw [ObjList.hasKey_cons]; simp))]
      rw [ih _ hnd.2 ?fr4, ObjList.append_assoc]
      · rfl
      case fr4 =>
        intro j hj
        rw [ObjList.hasKey_append, ObjList.hasKey_cons]
        have h1 : out.hasKey j = false := by
          apply hfr
          rw [ObjList.hasKey_cons, hj]
          simp
        have h2 : ¬(snake_to_camel k = j) := by
          intro he
          subst he
          have := hnd.1
          rw [hj] at this
          simp at this
        simp [h1, h2, show ObjList.nil.hasKey j = false from rfl]

theorem convertKeysItems_noDupKeys (entries : ObjList) (p : List String) :
    ∀ out : ObjList, out.noDupKeys = true →
    (convertKeysItems entries p out).noDupKeys = true := by
  induction entries using objListInduct with
  | hnil => intro out h; rw [convertKeysItems]; exact h
  | hcons k v t ih =>
    intro out h
    by_cases hp : _is_mcp_env_map_path p = true
    · rw [convertKeysItems, if_pos hp]
      exact ih _ (ObjList.noDupKeys_set _ _ _ h)
    · rw [convertKeysItems, if_neg hp]
      exact ih _ (ObjList.noDupKeys_set _ _ _ h)

theorem convertToCamelItems_noDupKeys (entries : ObjList) (p : List String) :
    ∀ out : ObjList, out.noDupKeys = true →
    (convertToCamelItems entries p out).noDupKeys = true := by
  induction entries using objListInduct with
  | hnil => intro out h; rw [convertToCamelItems]; exact h
  | hcons k v t ih =>
    intro out h
    by_cases hp : _is_mcp_env_map_path p = true
    · rw [convertToCamelItems, if_pos hp]
      exact ih _ (ObjList.noDupKeys_set _ _ _ h)
    · rw [convertToCamelItems, if_neg hp]
      exact ih _ (ObjList.noDupKeys_set _ _ _ h)

theorem ckMap_set (p : List String) (j : String) (w : Value)
    (hkey : _is_mcp_env_map_path p = false → camel_to_snake j = j)
    (hval : convert_keys w (p ++ [j]) = w) :
    ∀ out : ObjList, ckMap out p = out → ckMap (out.set j w) p = out.set j w := by
  intro out
  induction out using objListInduct with
  | hnil =>
    intro _
    by_cases hp : _is_mcp_env_map_path p = true
    · show ckMap (ObjList.cons j w .nil) p = ObjList.cons j w .nil
      rw [ckMap, if_pos hp, hval]
      rfl
    · have hp' : _is_mcp_env_map_path p = false := by
        cases hh : _is_mcp_env_map_path p
        · rfl
        · exact absurd hh hp
      show ckMap (ObjList.cons j w .nil) p = ObjList.cons j w .nil
      rw [ckMap, if_neg (by simp [hp']), hkey hp', hval]
      rfl
  | hcons k0 v0 t ih =>
    intro hout
    by_cases hp : _is_mcp_env_map_path p = true
    · rw [ckMap, if_pos hp] at hout
      injection hout with h1 h2 h3
      by_cases hkj : k0 = j
      · rw [ObjList.set, if_pos hkj, ckMap, if_pos hp, h3, hkj, hval]
      · rw [ObjList.set, if_neg hkj, ckMap, if_pos hp, h2, ih h3]
    · have hp' : _is_mcp_env_map_path p = false := by
        cases hh : _is_mcp_env_map_path p
        · rfl
        · exact absurd hh hp
      rw [ckMap, if_neg (by simp [hp'])] at hout
      injection hout with h1 h2 h3
      by_cases hkj : k0 = j
      · rw [ObjList.set, if_pos hkj, ckMap, if_neg (by simp [hp']), h3, hkj, hkey hp', hval]
      · rw [h1] at h2
        rw [ObjList.set, if_neg hkj, ckMap, if_neg (by simp [hp']), h1, h2, ih h3]

theorem ctcMap_set (p : List String) (j : String) (w : Value)
    (hkey : _is_mcp_env_map_path p = false → snake_to_camel j = j)
    (hval : convert_to_camel w (p ++ [j]) = w) :
    ∀ out : ObjList, ctcMap out p = out → ctcMap (out.set j w) p = out.set j w := by
  intro out
  induction out using objListInduct with
  | hnil =>
    intro _
    by_cases hp : _is_mcp_env_map_path p = true
    · show ctcMap (ObjList.cons j w .nil) p = ObjList.cons j w .nil
      rw [ctcMap, if_pos hp, hval]
      rfl
    · have hp' : _is_mcp_env_map_path p = false := by
        cases hh : _is_mcp_env_map_path p
        · rfl
        · exact absurd hh hp
      show ctcMap (ObjList.cons j w .nil) p = ObjList.cons j w .nil
      rw [ctcMap, if_neg (by simp [hp']), hkey hp', hval]
      rfl
  | hcons k0 v0 t ih =>
    intro hout
    by_cases hp : _is_mcp_env_map_path p = true
    · rw [ctcMap, if_pos hp] at hout
      injection hout with h1 h2 h3
      by_cases hkj : k0 = j
      · rw [ObjList.set, if_pos hkj, ctcMap, if_pos hp, h3, hkj, hval]
      · rw [ObjList.set, if_neg hkj, ctcMap, if_pos hp, h2, ih h3]
    · have hp' : _is_mcp_env_map_path p = false := by
        cases hh : _is_mcp_env_map_path p
        · rfl
        · exact absurd hh hp
      rw [ctcMap, if_neg (by simp [hp'])] at hout
      injection hout with h1 h2 h3
      by_cases hkj : k0 = j
      · rw [ObjList.set, if_pos hkj, ctcMap, if_neg (by simp [hp']), h3, hkj, hkey hp', hval]
      · rw [ObjList.set, if_neg hkj, ctcMap, if_neg (by simp [hp']), h1, h2, ih h3]

theorem convertKeysItems_fixed (p : List String) :
    ∀ entries : ObjList,
    (∀ k v, (k, v) ∈ entries.toList →
      ∀ q, convert_keys (convert_keys v q) q = convert_keys v q) →
    ∀ out, ckMap out p = out →
    ckMap (convertKeysItems entries p out) p = convertKeysItems entries p out := by
  intro entries
  induction entries using objListInduct with
  | hnil =>
    intro _ out hout
    rw [convertKeysItems]
    exact hout
  | hcons k v t ih =>
    intro hIH out hout
    have hIHt : ∀ k' v', (k', v') ∈ t.toList →
        ∀ q, convert_keys (convert_keys v' q) q = convert_keys v' q := by
      intro k' v' hm q
      exact hIH k' v' (by rw [ObjList.toList]; exact List.mem_cons_of_mem _ hm) q
    have hIHv : ∀ q, convert_keys (convert_keys v q) q = convert_keys v q :=
      hIH k v (by rw [ObjList.toList]; exact List.mem_cons_self _ _)
    by_cases hp : _is_mcp_env_map_path p = true
    · rw [convertKeysItems, if_pos hp]
      apply ih hIHt
      exact ckMap_set p k _ (fun hf => absurd hp (by simp [hf])) (hIHv (p ++ [k])) out hout
    · rw [convertKeysItems, if_neg hp]
      apply ih hIHt
      exact ckMap_set p (camel_to_snake k) _ (fun _ => camel_to_snake_idem k)
        (hIHv (p ++ [camel_to_snake k])) out hout

theorem convert_keys_idem_all :
    (∀ v : Value, ∀ p, convert_keys (convert_keys v p) p = convert_keys v p) ∧
    (∀ l : ValueList, ∀ p, convertKeysArr (convertKeysArr l p) p = convertKeysArr l p) ∧
    (∀ e : ObjList, ∀ k v, (k, v) ∈ e.toList →
      ∀ p, convert_keys (convert_keys v p) p = convert_keys v p) := by
  refine valueInduct
    (fun v => ∀ p, convert_keys (convert_keys v p) p = convert_keys v p)
    (fun l => ∀ p, convertKeysArr (convertKeysArr l p) p = convertKeysArr l p)
    (fun e => ∀ k v, (k, v) ∈ e.toList →
      ∀ p, convert_keys (convert_keys v p) p = convert_keys v p)
    ?_ ?_ ?_ ?_ ?_ ?_ ?_ ?_ ?_ ?_ ?_
  · intro s p; rfl
  · intro n p; rfl
  · intro q p; rfl
  · intro b p; rfl
  · intro p; rfl
  · intro l ih p
    simp only [convert_keys]
    rw [ih p]
  · intro e ih p
    simp only [convert_keys]
    have hnd : (convertKeysItems e p .nil).noDupKeys = true :=
      convertKeysItems_noDupKeys e p .nil rfl
    have hfix : ckMap (convertKeysItems e p .nil) p = convertKeysItems e p .nil :=
      convertKeysItems_fixed p e ih .nil rfl
    have := convertKeysItems_eq (convertKeysItems e p .nil) p .nil
      (by rw [hfix]; exact hnd) (fun j _ => rfl)
    rw [this, hfix]
    rfl
  · intro p
    rfl
  · intro v t ihv iht p
    simp only [convertKeysArr]
    rw [ihv p, iht p]
  · intro k v hm
    simp [ObjList.toList] at hm
  · intro k v t ihv iht k' v' hm q
    rw [ObjList.toList] at hm
    rcases List.mem_cons.mp hm with hm | hm
    · cases hm
      exact ihv q
    · exact iht k' v' hm q

mutual
/-- Every key of every (nested) mapping in the value satisfies `pred`. -/
def allKeysB (pred : String → Bool) : Value → Bool
  | .obj e => allKeysEntriesB pred e
  | .arr l => allKeysArrB pred l
  | _ => true
termination_by structural v => v
def allKeysEntriesB (pred : String → Bool) : ObjList → Bool
  | .nil => true
  | .cons k v t => pred k && allKeysB pred v && allKeysEntriesB pred t
termination_by structural l => l
def allKeysArrB (pred : String → Bool) : ValueList → Bool
  | .nil => true
  | .cons v t => allKeysB pred v && allKeysArrB pred t
termination_by structural l => l
end

mutual
/-- The value is a faithful image of a Python object: every (nested) mapping
has pairwise-distinct keys. -/
def wellFormedB : Value → Bool
  | .obj e => e.noDupKeys && wellFormedEntriesB e
  | .arr l => wellFormedArrB l
  | _ => true
termination_by structural v => v
def wellFormedEntriesB : ObjList → Bool
  | .nil => true
  | .cons _ v t => wellFormedB v && wellFormedEntriesB t
termination_by structural l => l
def wellFormedArrB : ValueList → Bool
  | .nil => true
  | .cons v t => wellFormedB v && wellFormedArrB t
termination_by structural l => l
end

mutual
/-- Whether the value, placed at structural position `p`, contains a mapping
at an exempted `tools.mcp_servers.<name>.env` position (including itself). -/
def containsEnvB : Value → List String → Bool
  | .obj e, p => _is_mcp_env_map_path p || containsEnvEntriesB e p
  | .arr l, p => containsEnvArrB l p
  | _, _ => false
termination_by structural v => v
def containsEnvEntriesB : ObjList → List String → Bool
  | .nil, _ => false
  | .cons k v t, p => containsEnvB v (p ++ [k]) || containsEnvEntriesB t p
termination_by structural l => l
def containsEnvArrB : ValueList → List String → Bool
  | .nil, _ => false
  | .cons v t, p => containsEnvB v p || containsEnvArrB t p
termination_by structural l => l
end

theorem ObjList.hasKey_iff_mem_keys (l : ObjList) (j : String) :
    l.hasKey j = true ↔ j ∈ l.keys := by
  induction l using objListInduct with
  | hnil => simp [ObjList.hasKey, ObjList.get, ObjList.keys]
  | hcons k v t ih =>
    rw [ObjList.hasKey_cons, ObjList.keys, Bool.or_eq_true, decide_eq_true_iff,
      List.mem_cons, ih]
    constructor
    · rintro (h | h)
      · exact Or.inl h.symm
      · exact Or.inr h
    · rintro (h | h)
      · exact Or.inl h.symm
      · exact Or.inr h

theorem ObjList.noDupKeys_iff (l : ObjList) : l.noDupKeys = true ↔ l.keys.Nodup := by
  induction l using objListInduct with
  | hnil => simp [ObjList.noDupKeys, ObjList.keys]
  | hcons k v t ih =>
    rw [ObjList.noDupKeys, ObjList.keys, Bool.and_eq_true, ih, List.nodup_cons]
    constructor
    · rintro ⟨h1, h2⟩
      refine ⟨?_, h2⟩
      intro hk
      rw [← ObjList.hasKey_iff_mem_keys] at hk
      rw [hk] at h1
      simp at h1
    · rintro ⟨h1, h2⟩
      refine ⟨?_, h2⟩
      cases hh : t.hasKey k
      · simp
      · exact absurd ((ObjList.hasKey_iff_mem_keys t k).mp hh) h1

theorem allKeysEntriesB_keys (pred : String → Bool) :
    ∀ e : ObjList, allKeysEntriesB pred e = true → ∀ k ∈ e.keys, pred k = true := by
  intro e
  induction e using objListInduct with
  | hnil => intro _ k hk; simp [ObjList.keys] at hk
  | hcons k0 v t ih =>
    intro h k hk
    rw [allKeysEntriesB, Bool.and_eq_true, Bool.and_eq_true] at h
    rw [ObjList.keys] at hk
    rcases List.mem_cons.mp hk with hk | hk
    · subst hk; exact h.1.1
    · exact ih h.2 k hk

theorem ctcMap_keys (p : List String) (hp : _is_mcp_env_map_path p = false) :
    ∀ e : ObjList, (ctcMap e p).keys = e.keys.map (fun k => snake_to_camel k) := by
  intro e
  induction e using objListInduct with
  | hnil => rfl
  | hcons k v t ih =>
    rw [ctcMap, if_neg (by simp [hp]), ObjList.keys, ObjList.keys, List.map_cons, ih]

theorem ckMap_keys (p : List String) (hp : _is_mcp_env_map_path p = false) :
    ∀ e : ObjList, (ckMap e p).keys = e.keys.map (fun k => camel_to_snake k) := by
  intro e
  induction e using objListInduct with
  | hnil => rfl
  | hcons k v t ih =>
    rw [ckMap, if_neg (by simp [hp]), ObjList.keys, ObjList.keys, List.map_cons, ih]

theorem convert_roundtrip_all :
    (∀ v : Value, ∀ p, wellFormedB v = true → allKeysB isAlphaSnakeKey v = true →
      containsEnvB v p = false → convert_keys (convert_to_camel v p) p = v) ∧
    (∀ l : ValueList, ∀ p, wellFormedArrB l = true →
      allKeysArrB isAlphaSnakeKey l = true → containsEnvArrB l p = false →
      convertKeysArr (convertToCamelArr l p) p = l) ∧
    (∀ e : ObjList, ∀ p, wellFormedEntriesB e = true →
      allKeysEntriesB isAlphaSnakeKey e = true → containsEnvEntriesB e p = false →
      _is_mcp_env_map_path p = false → ckMap (ctcMap e p) p = e) := by
  refine valueInduct
    (fun v => ∀ p, wellFormedB v = true → allKeysB isAlphaSnakeKey v = true →
      containsEnvB v p = false → convert_keys (convert_to_camel v p) p = v)
    (fun l => ∀ p, wellFormedArrB l = true →
      allKeysArrB isAlphaSnakeKey l = true → containsEnvArrB l p = false →
      convertKeysArr (convertToCamelArr l p) p = l)
    (fun e => ∀ p, wellFormedEntriesB e = true →
      allKeysEntriesB isAlphaSnakeKey e = true → containsEnvEntriesB e p = false →
      _is_mcp_env_map_path p = false → ckMap (ctcMap e p) p = e)
    ?_ ?_ ?_ ?_ ?_ ?_ ?_ ?_ ?_ ?_ ?_
  · intro s p _ _ _; rfl
  · intro n p _ _ _; rfl
  · intro q p _ _ _; rfl
  · intro b p _ _ _; rfl
  · intro p _ _ _; rfl
  · intro l ih p hwf hkeys henv
    simp only [convert_to_camel, convert_keys]
    rw [ih p hwf hkeys henv]
  · intro e ih p hwf hkeys henv
    rw [wellFormedB, Bool.and_eq_true] at hwf
    rw [allKeysB] at hkeys
    rw [containsEnvB, Bool.or_eq_false_iff] at henv
    obtain ⟨hp, henvE⟩ := henv
    have hkeysNodup : e.keys.Nodup := (ObjList.noDupKeys_iff e).mp hwf.1
    have halpha : ∀ k ∈ e.keys, isAlphaSnakeKey k = true :=
      allKeysEntriesB_keys _ e hkeys
    have hctcNodup : (ctcMap e p).noDupKeys = true := by
      rw [ObjList.noDupKeys_iff, ctcMap_keys p hp]
      apply List.Nodup.map_on ?inj hkeysNodup
      intro x hx y hy hxy
      have : camel_to_snake (snake_to_camel x) = camel_to_snake (snake_to_camel y) := by
        rw [hxy]
      rwa [camel_to_snake_snake_to_camel (halpha x hx),
        camel_to_snake_snake_to_camel (halpha y hy)] at this
    simp only [convert_to_camel, convert_keys]
    rw [convertToCamelItems_eq e p .nil hctcNodup (fun j _ => rfl)]
    have hmap : ckMap (ctcMap e p) p = e := ih p hwf.2 hkeys henvE hp
    have hckNodup : (ckMap (ObjList.nil.append (ctcMap e p)) p).noDupKeys = true := by
      show (ckMap (ctcMap e p) p).noDupKeys = true
      rw [hmap]
      exact hwf.1
    rw [convertKeysItems_eq _ p .nil hckNodup (fun j _ => rfl)]
    show Value.obj (ckMap (ctcMap e p) p) = Value.obj e
    rw [hmap]
  · intro p _ _ _; rfl
  · intro v t ihv iht p hwf hkeys henv
    rw [wellFormedArrB, Bool.and_eq_true] at hwf
    rw [allKeysArrB, Bool.and_eq_true] at hkeys
    rw [containsEnvArrB, Bool.or_eq_false_iff] at henv
    simp only [convert_to_camel, convertToCamelArr, convert_keys, convertKeysArr]
    rw [ihv p hwf.1 hkeys.1 henv.1, iht p hwf.2 hkeys.2 henv.2]
  · intro p _ _ _ _; rfl
  · intro k v t ihv iht p hwf hkeys henv hp
    rw [wellFormedEntriesB, Bool.and_eq_true] at hwf
    rw [allKeysEntriesB, Bool.and_eq_true, Bool.and_eq_true] at hkeys
    rw [containsEnvEntriesB, Bool.or_eq_false_iff] at henv
    rw [ctcMap, if_neg (by simp [hp]), ckMap, if_neg (by simp [hp]),
      camel_to_snake_snake_to_camel hkeys.1.1,
      ihv (p ++ [k]) hwf.1 hkeys.1.2 henv.1, iht p hwf.2 hkeys.2 henv.2 hp]

/-- Python's substring test `needle in s` for a nonempty needle. -/
def strContains (s needle : String) : Bool := (s.splitOn needle).length > 1

/-- Python's list-membership test `w in l` (element equality). -/
def arrContains (w : Value) : ValueList → Bool
  | .nil => false
  | .cons v t => Value.beq v w || arrContains w t

/-- Embeds `_migrate_config` (loader.py lines 65-72), lifted to a JSON value.
The result `none` models an uncaught Python exception: `data.get` on a
non-dict raises `AttributeError`, as does `tools.get` when `tools` is not a
dict; when `exec` maps to a number, boolean or `None`, the membership test
`"restrictToWorkspace" in exec_cfg` raises `TypeError`; when it maps to a
string or list whose membership test succeeds (with the new key absent),
`exec_cfg.pop("restrictToWorkspace")` raises.  Otherwise the old field at
`tools.exec.restrictToWorkspace` is moved to `tools.restrictToWorkspace`
exactly when it exists and the new key is absent, mutating `tools` in place:
`exec` keeps its position and the new key is appended at the end. -/
def _migrate_config (data : Value) : Option Value :=
  match data with
  | .obj d =>
    match d.get "tools" with
    | none => some (.obj d)
    | some (.obj tools) =>
      match tools.get "exec" with
      | none => some (.obj d)
      | some (.obj execCfg) =>
        match execCfg.get "restrictToWorkspace" with
        | some v =>
          if tools.hasKey "restrictToWorkspace" then some (.obj d)
          else
            some (.obj (d.set "tools" (.obj
              ((tools.set "exec" (.obj (execCfg.remove "restrictToWorkspace"))).set
                "restrictToWorkspace" v))))
        | none => some (.obj d)
      | some (.str s) =>
        if strContains s "restrictToWorkspace" && !tools.hasKey "restrictToWorkspace" then
          none
        else some (.obj d)
      | some (.arr l) =>
        if arrContains (.str "restrictToWorkspace") l
            && !tools.hasKey "restrictToWorkspace" then
          none
        else some (.obj d)
      | some _ => none
    | some _ => none
  | _ => none

/-- Modelled from the spec: the pydantic `Config` schema
(`nanobot.config.schema` is not among the sources) is kept abstract; a
successfully validated configuration is identified by the converted JSON
value it was validated from, and `Config.default` stands for `Config()`. -/
structure Config where
  fromValue : Option Value

/-- The default configuration `Config()`. -/
def Config.default : Config := ⟨none⟩

/-- Modelled from the spec: `load_config` (loader.py lines 21-43) with its
I/O collaborators abstracted.  `pathExists` models `path.exists()`; `parsed`
models the outcome of `json.load` (`Except.error` being a
`json.JSONDecodeError`); `modelValidate` models `Config.model_validate`
(`Except.error` being a `ValueError`, which includes pydantic's validation
error).  The `try` block catches exactly `(json.JSONDecodeError, ValueError)`
and falls back to the default configuration; an exception raised by
`_migrate_config` (modelled by `none`) is not caught, so a `none` result
models `load_config` itself raising. -/
def load_config (pathExists : Bool) (parsed : Except String Value)
    (modelValidate : Value → Except String Config) : Option Config :=
  if pathExists then
    match parsed with
    | .error _ => some Config.default
    | .ok data =>
      match _migrate_config data with
      | none => none
      | some migrated =>
        match modelValidate (convert_keys migrated []) with
        | .ok c => some c
        | .error _ => some Config.default
  else some Config.default

/-- A validation path segment: an object field name or an array index. -/
inductive PathSeg where
  | field (name : String) : PathSeg
  | index (i : Nat) : PathSeg
deriving DecidableEq

/-- Renders the non-root segments: a field appends `.<key>`, an index
appends `[<i>]`. -/
def renderSegs : List PathSeg → String → String
  | [], acc => acc
  | .field n :: rest, acc => renderSegs rest (acc ++ "." ++ n)
  | .index i :: rest, acc => renderSegs rest (acc ++ "[" ++ toString i ++ "]")

/-- Modelled from the spec (section 4.1): path rendering — the root field has
no prefix, a nested object field appends `.<key>`, an array element appends
`[<index>]`; the segment list `[meta, flags, 0]` renders as
`meta.flags[0]`. -/
def renderPath : List PathSeg → String
  | [] => ""
  | .field n :: rest => renderSegs rest n
  | .index i :: rest => renderSegs rest ("[" ++ toString i ++ "]")

/-!
Modelled from the spec (section 3): the schema model.  The validator, the
`Tool` base class and the `ToolRegistry` live in `nanobot.agent.tools.base`
and `nanobot.agent.tools.registry`, which are not among the sources — only
their tests are — so they are modelled from the spec's data model and
component design, and checked against the behaviour the tests pin down.
-/
mutual
inductive SchemaNode where
  | object (properties : PropList) (required : List String) : SchemaNode
  | array (items : SchemaNode) : SchemaNode
  | string (minLength maxLength : Option Nat) (enumVals : Option (List String)) : SchemaNode
  | integer (minimum maximum : Option Int) : SchemaNode
  | number (minimum maximum : Option Int) : SchemaNode
  | boolean : SchemaNode
inductive PropList where
  | nil : PropList
  | cons (name : String) (schema : SchemaNode) (tail : PropList) : PropList
end

/-- Modelled from the spec: the integer type check accepts exactly integral
numbers; booleans are a separate `Value` constructor and numeric strings are
`Value.str`, so both fail this check. -/
def intValue? : Value → Option Int
  | .int n => some n
  | .num q => if q.den = 1 then some q.num else none
  | _ => none

/-- Modelled from the spec: the number type check accepts integral and
non-integral numbers (not booleans, not numeric strings). -/
def numValue? : Value → Option Rat
  | .int n => some (n : Rat)
  | .num q => some q
  | _ => none

/-- Bounds errors for an integer value that passed the type check. -/
def boundErrsInt (lo hi : Option Int) (n : Int) (path : List PathSeg) : List String :=
  (match lo with
   | some m => if n < m then [renderPath path ++ " must be >= " ++ toString m] else []
   | none => []) ++
  (match hi with
   | some m => if n > m then [renderPath path ++ " must be <= " ++ toString m] else []
   | none => [])

/-- Bounds errors for a number value that passed the type check. -/
def boundErrsNum (lo hi : Option Int) (q : Rat) (path : List PathSeg) : List String :=
  (match lo with
   | some m => if q < (m : Rat) then [renderPath path ++ " must be >= " ++ toString m] else []
   | none => []) ++
  (match hi with
   | some m => if (m : Rat) < q then [renderPath path ++ " must be <= " ++ toString m] else []
   | none => [])

/-- Length and enum errors for a string value that passed the type check. -/
def strErrs (minL maxL : Option Nat) (enumVals : Option (List String))
    (s : String) (path : List PathSeg) : List String :=
  (match minL with
   | some m =>
     if s.length < m then
       [renderPath path ++ " must be at least " ++ toString m ++ " chars"]
     else []
   | none => []) ++
  (match maxL with
   | some m =>
     if s.length > m then
       [renderPath path ++ " must be at most " ++ toString m ++ " chars"]
     else []
   | none => []) ++
  (match enumVals with
   | some es =>
     if s ∈ es then []
     else [renderPath path ++ " must be one of " ++ String.intercalate ", " es]
   | none => [])

/-- The required-name pass over an object value: one `missing required`
error per required name absent from the value, in the order declared. -/
def requiredErrs (reqd : List String) (entries : ObjList)
    (path : List PathSeg) : List String :=
  match reqd with
  | [] => []
  | r :: rest =>
    (if entries.hasKey r then []
     else ["missing required " ++ renderPath (path ++ [PathSeg.field r])]) ++
    requiredErrs rest entries path

/-- Validates each array element against the `items` schema, the path
extended with the element index. -/
def runItems (g : Value → Nat → List String) : ValueList → Nat → List String
  | .nil, _ => []
  | .cons v rest, i => g v i ++ runItems g rest (i + 1)

mutual
/-- Modelled from the spec (section 4.1): the recursive-descent validator.
For every node kind the type check runs first and, on failure, stops
descent with a single `should be <kind>` error; objects check required names
first and then recurse into declared properties in declared order
(undeclared value keys are ignored); arrays recurse into every element. -/
def validateAt : SchemaNode → Value → List PathSeg → List String
  | .object props reqd => fun v path =>
    match v with
    | .obj entries => requiredErrs reqd entries path ++ validateProps props entries path
    | _ => [renderPath path ++ " should be object"]
  | .array items => fun v path =>
    match v with
    | .arr l => runItems (fun w i => validateAt items w (path ++ [PathSeg.index i])) l 0
    | _ => [renderPath path ++ " should be array"]
  | .string minL maxL enumVals => fun v path =>
    match v with
    | .str s => strErrs minL maxL enumVals s path
    | _ => [renderPath path ++ " should be string"]
  | .integer lo hi => fun v path =>
    match intValue? v with
    | some n => boundErrsInt lo hi n path
    | none => [renderPath path ++ " should be integer"]
  | .number lo hi => fun v path =>
    match numValue? v with
    | some q => boundErrsNum lo hi q path
    | none => [renderPath path ++ " should be number"]
  | .boolean => fun v path =>
    match v with
    | .bool _ => []
    | _ => [renderPath path ++ " should be boolean"]
termination_by structural s => s
/-- The declared-property pass: recurse into each declared property present
in the value, with the path extended by the property name. -/
def validateProps : PropList → ObjList → List PathSeg → List String
  | .nil, _, _ => []
  | .cons name s rest, entries, path =>
    (match entries.get name with
     | some w => validateAt s w (path ++ [PathSeg.field name])
     | none => []) ++ validateProps rest entries path
termination_by structural p => p
end

/-- Modelled from the spec: `validate(schema, value)` at the root path. -/
def validate (schema : SchemaNode) (v : Value) : List String := validateAt schema v []

def intBoundsOk (lo hi : Option Int) (n : Int) : Bool :=
  (match lo with
   | some m => decide (m ≤ n)
   | none => true) &&
  (match hi with
   | some m => decide (n ≤ m)
   | none => true)

def numBoundsOk (lo hi : Option Int) (q : Rat) : Bool :=
  (match lo with
   | some m => decide ((m : Rat) ≤ q)
   | none => true) &&
  (match hi with
   | some m => decide (q ≤ (m : Rat))
   | none => true)

def strOk (minL maxL : Option Nat) (enumVals : Option (List String)) (s : String) : Bool :=
  (match minL with
   | some m => decide (m ≤ s.length)
   | none => true) &&
  (match maxL with
   | some m => decide (s.length ≤ m)
   | none => true) &&
  (match enumVals with
   | some es => decide (s ∈ es)
   | none => true)

def allItemsB (g : Value → Bool) : ValueList → Bool
  | .nil => true
  | .cons v t => g v && allItemsB g t

def requiredOk (reqd : List String) (entries : ObjList) : Bool :=
  reqd.all (fun r => entries.hasKey r)

mutual
/-- Conformance of a value to a schema, written directly from the spec's
constraint semantics (independently of the error-collecting validator):
used to state that an empty error sequence means the value conforms. -/
def conformsB : SchemaNode → Value → Bool
  | .object props reqd => fun v =>
    match v with
    | .obj entries => requiredOk reqd entries && propsConformB props entries
    | _ => false
  | .array items => fun v =>
    match v with
    | .arr l => allItemsB (fun w => conformsB items w) l
    | _ => false
  | .string minL maxL enumVals => fun v =>
    match v with
    | .str s => strOk minL maxL enumVals s
    | _ => false
  | .integer lo hi => fun v =>
    match intValue? v with
    | some n => intBoundsOk lo hi n
    | none => false
  | .number lo hi => fun v =>
    match numValue? v with
    | some q => numBoundsOk lo hi q
    | none => false
  | .boolean => fun v =>
    match v with
    | .bool _ => true
    | _ => false
termination_by structural s => s
def propsConformB : PropList → ObjList → Bool
  | .nil, _ => true
  | .cons name s rest, entries =>
    (match entries.get name with
     | some w => conformsB s w
     | none => true) && propsConformB rest entries
termination_by structural p => p
end

/-- Modelled from the spec (section 4.2): a tool exposes `name`,
`description`, a root schema `parameters` and an asynchronous `execute`;
`Except.error` models a raised execution failure. -/
structure Tool where
  name : String
  description : String
  parameters : SchemaNode
  execute : Value → Except String String

/-- Modelled from the spec (section 4.2): `validate_params` is a thin call
into the validator against the tool's own root schema. -/
def Tool.validate_params (t : Tool) (args : Value) : List String :=
  validate t.parameters args

/-- Assoc-list lookup in the registry's name-to-tool mapping. -/
def registryFind : List (String × Tool) → String → Option Tool
  | [], _ => none
  | (k, t) :: rest, nm => if k = nm then some t else registryFind rest nm

/-- Modelled from the spec (section 4.3): `register` stores the tool under
`tool.name`, overwriting an existing binding. -/
def registryRegister : List (String × Tool) → Tool → List (String × Tool)
  | [], t => [(t.name, t)]
  | (k, t0) :: rest, t =>
    if k = t.name then (k, t) :: rest else (k, t0) :: registryRegister rest t

/-- Modelled from the spec (section 4.3 step 3): run the tool, catching an
execution failure at the registry boundary and converting it to a string. -/
def runToolResult (nm : String) (t : Tool) (args : Value) : String :=
  match t.execute args with
  | .ok r => r
  | .error m => "Error executing " ++ nm ++ ": " ++ m

/-- Modelled from the spec (section 4.3): `Registry.execute(name, args)` —
look up the name (unknown-tool error when absent, validation not invoked),
validate the arguments (join errors after `"Invalid parameters: "` and do
not execute), and only then run the tool. -/
def registryExecute (reg : List (String × Tool)) (nm : String) (args : Value) : String :=
  match registryFind reg nm with
  | none => "Unknown tool: " ++ nm
  | some t =>
    let errs := t.validate_params args
    if errs.isEmpty then runToolResult nm t args
    else "Invalid parameters: " ++ String.intercalate "; " errs

/-- The parameter schema of `SampleTool` (test_tool_validation.py lines
17-38). -/
def sampleSchema : SchemaNode :=
  .object
    (.cons "query" (.string (some 2) none none)
      (.cons "count" (.integer (some 1) (some 10))
        (.cons "mode" (.string none none (some ["fast", "full"]))
          (.cons "meta"
            (.object
              (.cons "tag" (.string none none none)
                (.cons "flags" (.array (.string none none none)) .nil))
              ["tag"])
            .nil))))
    ["query", "count"]

/-- The `SampleTool` of the test-file (its `execute` returns `"ok"`). -/
def sampleTool : Tool :=
  { name := "sample", description := "sample tool", parameters := sampleSchema,
    execute := fun _ => .ok "ok" }

theorem schemaInduct (P : SchemaNode → Prop) (R : PropList → Prop)
    (hobj : ∀ props reqd, R props → P (.object props reqd))
    (harr : ∀ items, P items → P (.array items))
    (hstr : ∀ a b c, P (.string a b c))
    (hint : ∀ a b, P (.integer a b))
    (hnum : ∀ a b, P (.number a b))
    (hbool : P .boolean)
    (hnil : R .nil)
    (hcons : ∀ nm s t, P s → R t → R (.cons nm s t)) :
    (∀ s, P s) ∧ (∀ props, R props) :=
  ⟨fun s => @SchemaNode.rec P R hobj harr hstr hint hnum hbool hnil hcons s,
   fun props => @PropList.rec P R hobj harr hstr hint hnum hbool hnil hcons props⟩

theorem requiredErrs_empty_iff (entries : ObjList) (path : List PathSeg) :
    ∀ reqd : List String,
    requiredErrs reqd entries path = [] ↔ requiredOk reqd entries = true := by
  intro reqd
  induction reqd with
  | nil => simp [requiredErrs, requiredOk]
  | cons r rest ih =>
    rw [requiredErrs, requiredOk, List.all_cons, Bool.and_eq_true]
    rw [requiredOk] at ih
    cases hh : entries.hasKey r
    · simp [hh]
    · simp [hh, ih]

theorem runItems_empty_iff (g : Value → Nat → List String) (c : Value → Bool)
    (hg : ∀ v i, g v i = [] ↔ c v = true) :
    ∀ l : ValueList, ∀ i, runItems g l i = [] ↔ allItemsB c l = true := by
  intro l
  induction l using valueListInduct with
  | hnil => intro i; simp [runItems, allItemsB]
  | hcons v t ih =>
    intro i
    rw [runItems, allItemsB, List.append_eq_nil, Bool.and_eq_true, hg v i, ih (i + 1)]

theorem ite_singleton_empty_iff {c : Prop} [Decidable c] (x : String) :
    ((if c then [x] else []) = []) ↔ ¬c := by
  split_ifs with h <;> simp [h]

theorem ite_empty_singleton_iff {c : Prop} [Decidable c] (x : String) :
    ((if c then [] else [x]) = ([] : List String)) ↔ c := by
  split_ifs with h <;> simp [h]

theorem strErrs_empty_iff (minL maxL : Option Nat) (enumVals : Option (List String))
    (s : String) (path : List PathSeg) :
    strErrs minL maxL enumVals s path = [] ↔ strOk minL maxL enumVals s = true := by
  rcases minL with _ | m <;> rcases maxL with _ | M <;> rcases enumVals with _ | es <;>
    simp [strErrs, strOk, List.append_eq_nil, ite_singleton_empty_iff,
      ite_empty_singleton_iff, not_lt, and_assoc]

theorem boundErrsInt_empty_iff (lo hi : Option Int) (n : Int) (path : List PathSeg) :
    boundErrsInt lo hi n path = [] ↔ intBoundsOk lo hi n = true := by
  rcases lo with _ | m <;> rcases hi with _ | M <;>
    simp [boundErrsInt, intBoundsOk, List.append_eq_nil, ite_singleton_empty_iff, not_lt]

theorem boundErrsNum_empty_iff (lo hi : Option Int) (q : Rat) (path : List PathSeg) :
    boundErrsNum lo hi q path = [] ↔ numBoundsOk lo hi q = true := by
  rcases lo with _ | m <;> rcases hi with _ | M <;>
    simp [boundErrsNum, numBoundsOk, List.append_eq_nil, ite_singleton_empty_iff, not_lt]

theorem validate_empty_iff_all :
    (∀ s : SchemaNode, ∀ v path, validateAt s v path = [] ↔ conformsB s v = true) ∧
    (∀ props : PropList, ∀ entries path,
      validateProps props entries path = [] ↔ propsConformB props entries = true) := by
  refine schemaInduct
    (fun s => ∀ v path, validateAt s v path = [] ↔ conformsB s v = true)
    (fun props => ∀ entries path,
      validateProps props entries path = [] ↔ propsConformB props entries = true)
    ?_ ?_ ?_ ?_ ?_ ?_ ?_ ?_
  · intro props reqd ih v path
    cases v <;> simp only [validateAt, conformsB] <;> try simp
    case obj entries =>
      rw [requiredErrs_empty_iff, ih]
  · intro items ih v path
    cases v <;> simp only [validateAt, conformsB] <;> try simp
    case arr l =>
      exact runItems_empty_iff _ _ (fun w i => ih w (path ++ [PathSeg.index i])) l 0
  · intro a b c v path
    cases v <;> simp only [validateAt, conformsB] <;> try simp
    case str s => exact strErrs_empty_iff a b c s path
  · intro a b v path
    simp only [validateAt, conformsB]
    cases hi : intValue? v
    · simp
    · exact boundErrsInt_empty_iff a b _ path
  · intro a b v path
    simp only [validateAt, conformsB]
    cases hq : numValue? v
    · simp
    · exact boundErrsNum_empty_iff a b _ path
  · intro v path
    cases v <;> simp [validateAt, conformsB]
  · intro entries path
    simp [validateProps, propsConformB]
  · intro nm s rest ihs ihrest entries path
    rw [validateProps, propsConformB]
    cases hg : entries.get nm
    · simp only [List.nil_append]
      rw [ihrest entries path]
      simp
    · rw [List.append_eq_nil, Bool.and_eq_true, ihs _ (path ++ [PathSeg.field nm]),
        ihrest entries path]

/-- A non-container JSON value (not a mapping, not an array). -/
def isScalar : Value → Bool
  | .obj _ => false
  | .arr _ => false
  | _ => true

/-- Entrywise value transformation keeping every key verbatim. -/
def ObjList.mapVals (f : String → Value → Value) : ObjList → ObjList
  | .nil => .nil
  | .cons k v t => .cons k (f k v) (ObjList.mapVals f t)

theorem ckMap_env (p : List String) (hp : _is_mcp_env_map_path p = true) :
    ∀ e : ObjList, ckMap e p = e.mapVals (fun k v => convert_keys v (p ++ [k])) := by
  intro e
  induction e using objListInduct with
  | hnil => rfl
  | hcons k v t ih => rw [ckMap, if_pos hp, ObjList.mapVals, ih]

theorem ctcMap_env (p : List String) (hp : _is_mcp_env_map_path p = true) :
    ∀ e : ObjList, ctcMap e p = e.mapVals (fun k v => convert_to_camel v (p ++ [k])) := by
  intro e
  induction e using objListInduct with
  | hnil => rfl
  | hcons k v t ih => rw [ctcMap, if_pos hp, ObjList.mapVals, ih]

theorem ObjList.keys_mapVals (f : String → Value → Value) :
    ∀ e : ObjList, (e.mapVals f).keys = e.keys := by
  intro e
  induction e using objListInduct with
  | hnil => rfl
  | hcons k v t ih => rw [ObjList.mapVals, ObjList.keys, ObjList.keys, ih]

theorem scalar_convert_fixed (v : Value) (h : isScalar v = true) (q : List String) :
    convert_keys v q = v ∧ convert_to_camel v q = v := by
  cases v <;> first
  | exact ⟨rfl, rfl⟩
  | simp [isScalar] at h

theorem env_path_append (p : List String) (hp : _is_mcp_env_map_path p = true)
    (k : String) : _is_mcp_env_map_path (p ++ [k]) = false := by
  rcases p with _ | ⟨a, _ | ⟨b, _ | ⟨c, _ | ⟨d, _ | ⟨e, t⟩⟩⟩⟩⟩
  · exact Bool.noConfusion hp
  · exact Bool.noConfusion hp
  · exact Bool.noConfusion hp
  · exact Bool.noConfusion hp
  · rfl
  · exact Bool.noConfusion hp

theorem convertKeysItems_hasKey_mono (p : List String) (j : String) :
    ∀ (entries : ObjList) (out : ObjList), out.hasKey j = true →
    (convertKeysItems entries p out).hasKey j = true := by
  intro entries
  induction entries using objListInduct with
  | hnil => intro out h; rw [convertKeysItems]; exact h
  | hcons k v t ih =>
    intro out h
    by_cases hp : _is_mcp_env_map_path p = true
    · rw [convertKeysItems, if_pos hp]
      apply ih
      rw [ObjList.hasKey_set, h]
      simp
    · rw [convertKeysItems, if_neg hp]
      apply ih
      rw [ObjList.hasKey_set, h]
      simp

theorem convertToCamelItems_hasKey_mono (p : List String) (j : String) :
    ∀ (entries : ObjList) (out : ObjList), out.hasKey j = true →
    (convertToCamelItems entries p out).hasKey j = true := by
  intro entries
  induction entries using objListInduct with
  | hnil => intro out h; rw [convertToCamelItems]; exact h
  | hcons k v t ih =>
    intro out h
    by_cases hp : _is_mcp_env_map_path p = true
    · rw [convertToCamelItems, if_pos hp]
      apply ih
      rw [ObjList.hasKey_set, h]
      simp
    · rw [convertToCamelItems, if_neg hp]
      apply ih
      rw [ObjList.hasKey_set, h]
      simp

theorem convertKeysItems_hasKey (p : List String) (hp : _is_mcp_env_map_path p = false) :
    ∀ (entries : ObjList) (out : ObjList) (j : String) (w : Value),
    (j, w) ∈ entries.toList →
    (convertKeysItems entries p out).hasKey (camel_to_snake j) = true := by
  intro entries
  induction entries using objListInduct with
  | hnil => intro out j w hm; simp [ObjList.toList] at hm
  | hcons k v t ih =>
    intro out j w hm
    rw [ObjList.toList] at hm
    rw [convertKeysItems, if_neg (by simp [hp])]
    rcases List.mem_cons.mp hm with hm | hm
    · cases hm
      apply convertKeysItems_hasKey_mono
      rw [ObjList.hasKey_set]
      simp
    · exact ih _ j w hm

theorem convertToCamelItems_hasKey (p : List String)
    (hp : _is_mcp_env_map_path p = false) :
    ∀ (entries : ObjList) (out : ObjList) (j : String) (w : Value),
    (j, w) ∈ entries.toList →
    (convertToCamelItems entries p out).hasKey (snake_to_camel j) = true := by
  intro entries
  induction entries using objListInduct with
  | hnil => intro out j w hm; simp [ObjList.toList] at hm
  | hcons k v t ih =>
    intro out j w hm
    rw [ObjList.toList] at hm
    rw [convertToCamelItems, if_neg (by simp [hp])]
    rcases List.mem_cons.mp hm with hm | hm
    · cases hm
      apply convertToCamelItems_hasKey_mono
      rw [ObjList.hasKey_set]
      simp
    · exact ih _ j w hm

/-- Projection of an object value's entries. -/
def objEntries : Value → ObjList
  | .obj e => e
  | _ => .nil

/-- A one-key mapping whose key is conventional snake_case (it contains a
digit component). -/
def c1CexObj : ObjList := .cons "a_1" Value.null .nil

/-- A snake_case configuration mapping mirroring the loader tests. -/
def c1WitnessObj : ObjList :=
  .cons "tools" (.obj (.cons "restrict_to_workspace" (.bool true)
    (.cons "mcp_servers" (.obj (.cons "demo" (.obj
      (.cons "extra_headers" (.obj (.cons "x_custom" (.str "v") .nil)) .nil)) .nil))
      .nil))) .nil

/-- The exempted structural position, in in-memory (snake_case) terms. -/
def envPath : List String := ["tools", "mcp_servers", "demo", "env"]

/-- The env mapping of the loader tests. -/
def c2EnvEntries : ObjList :=
  .cons "OPENAI_API_KEY" (.str "test_key") (.cons "MyCustomToken" (.str "abc") .nil)

/-- An env mapping with a nested mapping value. -/
def c2CexEntries : ObjList := .cons "A" (.obj (.cons "innerKey" Value.null .nil)) .nil

/-- The arguments `{query: "hi"}` of the registry test. -/
def c4Args : Value := .obj (.cons "query" (.str "hi") .nil)

/-- The arguments `{query: "hi", count: 2, meta: {flags: [1, "ok"]}}` of the
nested-validation test. -/
def c6Args : Value :=
  .obj (.cons "query" (.str "hi") (.cons "count" (.int 2)
    (.cons "meta" (.obj (.cons "flags"
      (.arr (.cons (.int 1) (.cons (.str "ok") .nil))) .nil)) .nil)))

/-- A config with the pre-migration field `tools.exec.restrictToWorkspace`. -/
def c7Data : ObjList :=
  .cons "tools" (.obj (.cons "exec"
    (.obj (.cons "restrictToWorkspace" (.bool true) .nil)) .nil)) .nil

/-- Claim C1 (amended): for a mapping (distinct keys at every level) whose
keys and nested keys are alphabetic snake_case — underscore-separated
nonempty components of lowercase letters, with no digit components — and
that contains no env sub-map at the exempted position, `convert_to_camel`
followed by `convert_keys` is the identity. -/
theorem claim_C1 (x : ObjList)
    (hwf : wellFormedB (Value.obj x) = true)
    (hkeys : allKeysB isAlphaSnakeKey (Value.obj x) = true)
    (henv : containsEnvB (Value.obj x) [] = false) :
    convert_keys (convert_to_camel (Value.obj x) []) [] = Value.obj x :=
  convert_roundtrip_all.1 (Value.obj x) [] hwf hkeys henv

/-- Claim C1 fails as stated: the mapping `{"a_1": null}` has snake_case keys
in the conventional sense (lowercase letters, digits, underscores), contains
no env sub-map, yet `convert_keys (convert_to_camel x)` maps it to
`{"a1": null}`, because `snake_to_camel` drops the underscore before the
digit component and `camel_to_snake` cannot restore it. -/
theorem claim_C1_counterexample :
    wellFormedB (Value.obj c1CexObj) = true ∧
    allKeysB isSnakeKey (Value.obj c1CexObj) = true ∧
    containsEnvB (Value.obj c1CexObj) [] = false ∧
    convert_keys (convert_to_camel (Value.obj c1CexObj) []) [] ≠ Value.obj c1CexObj := by
  refine ⟨by decide, by decide, by decide, by decide⟩

theorem claim_C1_witness :
    convert_keys (convert_to_camel (Value.obj c1WitnessObj) []) []
      = Value.obj c1WitnessObj :=
  claim_C1 c1WitnessObj (by decide) (by decide) (by decide)

/-- Claim C2 (amended): at the exempted env position both conversions keep
every key verbatim and process the mapping entrywise, replacing each value by
its own recursive conversion — which leaves every scalar (non-container)
value unchanged.  Nested containers inside env values are still recursed
into (see C9). -/
theorem claim_C2 (p : List String) (hp : _is_mcp_env_map_path p = true)
    (e : ObjList) (hnd : e.noDupKeys = true) :
    convert_keys (Value.obj e) p
      = Value.obj (e.mapVals (fun k v => convert_keys v (p ++ [k]))) ∧
    convert_to_camel (Value.obj e) p
      = Value.obj (e.mapVals (fun k v => convert_to_camel v (p ++ [k]))) ∧
    (e.mapVals (fun k v => convert_keys v (p ++ [k]))).keys = e.keys ∧
    (e.mapVals (fun k v => convert_to_camel v (p ++ [k]))).keys = e.keys ∧
    (∀ w : Value, isScalar w = true → ∀ q,
      convert_keys w q = w ∧ convert_to_camel w q = w) := by
  have h1 := ckMap_env p hp e
  have h2 := ctcMap_env p hp e
  have hk := (ObjList.noDupKeys_iff e).mp hnd
  have hnd1 : (ckMap e p).noDupKeys = true := by
    rw [ObjList.noDupKeys_iff, h1, ObjList.keys_mapVals]
    exact hk
  have hnd2 : (ctcMap e p).noDupKeys = true := by
    rw [ObjList.noDupKeys_iff, h2, ObjList.keys_mapVals]
    exact hk
  refine ⟨?_, ?_, ObjList.keys_mapVals _ e, ObjList.keys_mapVals _ e,
    fun w hw q => scalar_convert_fixed w hw q⟩
  · simp only [convert_keys]
    rw [convertKeysItems_eq e p .nil hnd1 (fun j _ => rfl), ← h1]
    rfl
  · simp only [convert_to_camel]
    rw [convertToCamelItems_eq e p .nil hnd2 (fun j _ => rfl), ← h2]
    rfl

/-- Claim C2 fails as stated: an env mapping whose value is itself a mapping
is not left unchanged — `convert_keys` converts the nested key `innerKey` to
`inner_key` inside the env value. -/
theorem claim_C2_counterexample :
    _is_mcp_env_map_path envPath = true ∧
    convert_keys (Value.obj c2CexEntries) envPath ≠ Value.obj c2CexEntries := by
  refine ⟨by decide, by decide⟩

theorem claim_C2_witness :
    convert_keys (Value.obj c2EnvEntries) envPath = Value.obj c2EnvEntries ∧
    convert_to_camel (Value.obj c2EnvEntries) envPath = Value.obj c2EnvEntries := by
  have h := claim_C2 envPath (by decide) c2EnvEntries (by decide)
  refine ⟨?_, ?_⟩
  · rw [h.1]
    rfl
  · rw [h.2.1]
    rfl

/-- Claim C3: `validate` is a total Lean function, so for every schema node
and every JSON-representable value it terminates with an ordered list of
strings and cannot raise; the empty list characterises conformance to the
schema (the conformance predicate is written independently from the spec's
constraint semantics). -/
theorem claim_C3 (schema : SchemaNode) (v : Value) :
    validate schema v = [] ↔ conformsB schema v = true :=
  validate_empty_iff_all.1 schema v []

/-- Claim C4: `Registry.execute` returns the unknown-tool error purely from
the failed lookup (validation plays no part); when validation yields errors
it returns exactly `"Invalid parameters: "` plus the errors joined with
`"; "`, independently of the tool's `execute`; only with no errors is the
tool run. -/
theorem claim_C4 (reg : List (String × Tool)) (nm : String) (args : Value) :
    (registryFind reg nm = none → registryExecute reg nm args = "Unknown tool: " ++ nm) ∧
    (∀ t, registryFind reg nm = some t → t.validate_params args ≠ [] →
      registryExecute reg nm args
        = "Invalid parameters: " ++ String.intercalate "; " (t.validate_params args)) ∧
    (∀ t, registryFind reg nm = some t → t.validate_params args = [] →
      registryExecute reg nm args = runToolResult nm t args) := by
  refine ⟨?_, ?_, ?_⟩
  · intro h
    simp [registryExecute, h]
  · intro t h hne
    simp only [registryExecute, h]
    rw [if_neg]
    intro hemp
    exact hne (List.isEmpty_iff.mp hemp)
  · intro t h he
    simp only [registryExecute, h]
    rw [if_pos (by simp [he])]

theorem claim_C4_witness :
    registryExecute (registryRegister [] sampleTool) "sample" c4Args
      = "Invalid parameters: missing required count" ∧
    registryExecute (registryRegister [] sampleTool) "missing" (Value.obj .nil)
      = "Unknown tool: missing" := by
  constructor
  · exact ((claim_C4 (registryRegister [] sampleTool) "sample" c4Args).2.1 sampleTool
      rfl (by decide)).trans (by decide)
  · exact (claim_C4 (registryRegister [] sampleTool) "missing" (Value.obj .nil)).1 rfl

/-- Claim C5: on an integer-typed schema node the type check runs first — a
value that is not an integral number (a numeric string such as `"2"`, a
boolean, or any non-number) yields exactly the single
`"<path> should be integer"` error and no bounds error; bounds errors arise
only from values that pass the integer type check. -/
theorem claim_C5 (lo hi : Option Int) (v : Value) (path : List PathSeg) :
    (intValue? v = none →
      validateAt (SchemaNode.integer lo hi) v path
        = [renderPath path ++ " should be integer"]) ∧
    (∀ n, intValue? v = some n →
      validateAt (SchemaNode.integer lo hi) v path = boundErrsInt lo hi n path) := by
  constructor
  · intro h
    simp only [validateAt, h]
  · intro n h
    simp only [validateAt, h]

theorem claim_C5_witness :
    validateAt (SchemaNode.integer (some 1) (some 10)) (Value.str "2")
        [PathSeg.field "count"]
      = ["count should be integer"] :=
  ((claim_C5 (some 1) (some 10) (Value.str "2") [PathSeg.field "count"]).1 rfl).trans
    (by decide)

/-- Claim C6: validating `{query:"hi", count:2, meta:{flags:[1,"ok"]}}`
against the sample schema (where `meta` requires `tag` and `flags` is
`array<string>`) produces the dotted/bracketed-path errors
`missing required meta.tag` and `meta.flags[0] should be string`. -/
theorem claim_C6 :
    "missing required meta.tag" ∈ validate sampleSchema c6Args ∧
    "meta.flags[0] should be string" ∈ validate sampleSchema c6Args := by
  have h : validate sampleSchema c6Args
      = ["missing required meta.tag", "meta.flags[0] should be string"] := by decide
  rw [h]
  exact ⟨by simp, by simp⟩

/-- Claim C7: `_migrate_config` relocates `tools.exec.restrictToWorkspace`
to `tools.restrictToWorkspace` (removing it from `exec`, keeping `exec`'s
position and appending the new key) exactly when the old key is present and
the new one is absent; when the new key is already present — or the old one
is absent — the data is returned unchanged. -/
theorem claim_C7 (d tools execCfg : ObjList) (v : Value)
    (hd : d.get "tools" = some (Value.obj tools))
    (he : tools.get "exec" = some (Value.obj execCfg)) :
    (execCfg.get "restrictToWorkspace" = some v →
      tools.hasKey "restrictToWorkspace" = false →
      _migrate_config (Value.obj d)
        = some (Value.obj (d.set "tools" (Value.obj
            ((tools.set "exec" (Value.obj (execCfg.remove "restrictToWorkspace"))).set
              "restrictToWorkspace" v))))) ∧
    (tools.hasKey "restrictToWorkspace" = true →
      _migrate_config (Value.obj d) = some (Value.obj d)) ∧
    (execCfg.get "restrictToWorkspace" = none →
      _migrate_config (Value.obj d) = some (Value.obj d)) := by
  refine ⟨?_, ?_, ?_⟩
  · intro hold hnew
    simp [_migrate_config, hd, he, hold, hnew]
  · intro hnew
    cases hold : execCfg.get "restrictToWorkspace" with
    | none => simp [_migrate_config, hd, he, hold]
    | some w => simp [_migrate_config, hd, he, hold, hnew]
  · intro hold
    simp [_migrate_config, hd, he, hold]

theorem claim_C7_witness :
    _migrate_config (Value.obj c7Data)
      = some (Value.obj (.cons "tools" (Value.obj
          (.cons "exec" (Value.obj .nil)
            (.cons "restrictToWorkspace" (Value.bool true) .nil))) .nil)) :=
  (((claim_C7 c7Data
    (.cons "exec" (Value.obj (.cons "restrictToWorkspace" (Value.bool true) .nil)) .nil)
    (.cons "restrictToWorkspace" (Value.bool true) .nil)
    (Value.bool true) rfl rfl).1 rfl rfl)).trans (by decide)

/-- Claim C8 (amended): `load_config` is non-fatal — warning and returning
the default configuration — when the JSON text fails to parse, and when the
parsed value passes the migration step and then fails validation; but a
parsed value whose shape breaks `_migrate_config` (for example a top-level
array, or a non-object `tools`) raises an uncaught exception, which
propagates out of `load_config`. -/
theorem claim_C8 (parsed : Except String Value) (mv : Value → Except String Config) :
    (∀ msg, parsed = .error msg → load_config true parsed mv = some Config.default) ∧
    (∀ d migrated msg, parsed = .ok d → _migrate_config d = some migrated →
      mv (convert_keys migrated []) = .error msg →
      load_config true parsed mv = some Config.default) ∧
    (∀ d, parsed = .ok d → _migrate_config d = none →
      load_config true parsed mv = none) := by
  refine ⟨?_, ?_, ?_⟩
  · intro msg h
    simp [load_config, h]
  · intro d mig msg h1 h2 h3
    simp [load_config, h1, h2, h3]
  · intro d h1 h2
    simp [load_config, h1, h2]

/-- Claim C8 fails as stated: the file exists and holds valid JSON `[]` — a
malformed configuration — yet `load_config` does not fall back to the
default: `_migrate_config` calls `.get` on the parsed list, raising an
uncaught `AttributeError` (modelled by `none`). -/
theorem claim_C8_counterexample :
    load_config true (Except.ok (Value.arr .nil)) (fun _ => Except.error "invalid")
      = none := rfl

theorem claim_C8_witness :
    load_config true (Except.error "bad json") (fun _ => Except.error "invalid")
      = some Config.default ∧
    load_config true (Except.ok (Value.obj .nil)) (fun _ => Except.error "invalid")
      = some Config.default :=
  ⟨(claim_C8 (Except.error "bad json") (fun _ => Except.error "invalid")).1 "bad json" rfl,
   (claim_C8 (Except.ok (Value.obj .nil)) (fun _ => Except.error "invalid")).2.1
     (Value.obj .nil) (Value.obj .nil) "invalid" rfl rfl rfl⟩

/-- Claim C9: the env exemption protects only the immediate keys of the env
mapping.  At the exempted position both conversions keep the immediate key
and recurse into its value with the extended path, which is no longer the
exempted position — so every key of a mapping nested inside an env value is
still case-converted (its converted form appears among the result's keys). -/
theorem claim_C9 (p : List String) (hp : _is_mcp_env_map_path p = true)
    (k : String) (inner : ObjList) :
    convert_keys (Value.obj (.cons k (Value.obj inner) .nil)) p
      = Value.obj (.cons k (convert_keys (Value.obj inner) (p ++ [k])) .nil) ∧
    convert_to_camel (Value.obj (.cons k (Value.obj inner) .nil)) p
      = Value.obj (.cons k (convert_to_camel (Value.obj inner) (p ++ [k])) .nil) ∧
    _is_mcp_env_map_path (p ++ [k]) = false ∧
    (∀ j w, (j, w) ∈ inner.toList →
      (objEntries (convert_keys (Value.obj inner) (p ++ [k]))).hasKey
        (camel_to_snake j) = true) ∧
    (∀ j w, (j, w) ∈ inner.toList →
      (objEntries (convert_to_camel (Value.obj inner) (p ++ [k]))).hasKey
        (snake_to_camel j) = true) := by
  have hp5 := env_path_append p hp k
  refine ⟨?_, ?_, hp5, ?_, ?_⟩
  · show Value.obj (convertKeysItems (.cons k (Value.obj inner) .nil) p .nil) = _
    rw [convertKeysItems, if_pos hp, convertKeysItems]
    rfl
  · show Value.obj (convertToCamelItems (.cons k (Value.obj inner) .nil) p .nil) = _
    rw [convertToCamelItems, if_pos hp, convertToCamelItems]
    rfl
  · intro j w hm
    exact convertKeysItems_hasKey (p ++ [k]) hp5 inner .nil j w hm
  · intro j w hm
    exact convertToCamelItems_hasKey (p ++ [k]) hp5 inner .nil j w hm

theorem claim_C9_witness :
    convert_keys
        (Value.obj (.cons "A" (Value.obj (.cons "innerKey" Value.null .nil)) .nil))
        envPath
      = Value.obj (.cons "A" (Value.obj (.cons "inner_key" Value.null .nil)) .nil) := by
  have h := (claim_C9 envPath (by decide) "A" (.cons "innerKey" Value.null .nil)).1
  exact h.trans (by decide)

/-- Claim C10: `camel_to_snake` emits no uppercase characters, so it is
idempotent, and consequently `convert_keys` is idempotent on every value. -/
theorem claim_C10 :
    (∀ s : String, ∀ c ∈ (camel_to_snake s).data, pyIsUpper c = false) ∧
    (∀ s : String, camel_to_snake (camel_to_snake s) = camel_to_snake s) ∧
    (∀ x : Value, convert_keys (convert_keys x []) [] = convert_keys x []) :=
  ⟨fun _ _ hc => (c2sChars_chars_not_upper hc).1,
   camel_to_snake_idem,
   fun x => convert_keys_idem_all.1 x []⟩

theorem claim_C10_witness :
    pyIsUpper 'b' = false ∧
    camel_to_snake (camel_to_snake "restrictToWorkspace")
      = camel_to_snake "restrictToWorkspace" ∧
    convert_keys (convert_keys (Value.obj (.cons "aB" Value.null .nil)) []) []
      = convert_keys (Value.obj (.cons "aB" Value.null .nil)) [] :=
  ⟨claim_C10.1 "aB" 'b' (by decide), claim_C10.2.1 "restrictToWorkspace",
   claim_C10.2.2 (Value.obj (.cons "aB" Value.null .nil))⟩
